import Mathlib

/-!
Verification of the movieclipper CLI (src/movieclipper/cli.py) against its
specification. The Python functions are shallowly embedded: strings that get
parsed are `List Char`, Python `int` is `Int`, `float` timestamps are `ℚ`,
raised exceptions are `Option`/`Except` failures.
-/

namespace Movieclipper

/-! ### Python string and integer primitives -/

/-- ASCII decimal digit test (`'0'` through `'9'`). -/
def isAsciiDigit (c : Char) : Bool := 48 ≤ c.toNat && c.toNat ≤ 57

/-- Model of Python `str.isdigit` (restricted to ASCII digits). -/
def pyIsDigit (l : List Char) : Bool := !l.isEmpty && l.all isAsciiDigit

/-- Numeric value of a big-endian ASCII digit string. -/
def digitsVal (l : List Char) : Nat := l.foldl (fun a c => 10 * a + (c.toNat - 48)) 0

mutual

/-- Tail of the digit part of a Python integer literal: further digits, with
single underscores allowed only between digits. -/
def pyDigitsTail : List Char → Bool
  | [] => true
  | c :: rest =>
    if c = '_' then pyAfterUnderscore rest else isAsciiDigit c && pyDigitsTail rest

/-- After a grouping underscore a digit must follow. -/
def pyAfterUnderscore : List Char → Bool
  | [] => false
  | d :: rest => isAsciiDigit d && pyDigitsTail rest

end

/-- Digit part of a Python integer literal: non-empty, starts with a digit,
underscores only between digits. -/
def pyDigits : List Char → Bool
  | [] => false
  | c :: rest => isAsciiDigit c && pyDigitsTail rest

/-- Unsigned part of Python `int(str)`: value of the digit sequence once
grouping underscores are removed. -/
def pyNatPart (l : List Char) : Option Int :=
  if pyDigits l then some ((digitsVal (l.filter (fun c => c != '_')) : Int)) else none

/-- Python `int(str)` after whitespace stripping: an optional single sign
followed by the digit part. -/
def pyIntCore : List Char → Option Int
  | [] => none
  | c :: rest =>
    if c = '+' then pyNatPart rest
    else if c = '-' then (pyNatPart rest).map (fun v => -v)
    else pyNatPart (c :: rest)

/-- Strip leading and trailing whitespace, as Python `int` does. -/
def trimWs (l : List Char) : List Char :=
  ((l.dropWhile Char.isWhitespace).reverse.dropWhile Char.isWhitespace).reverse

/-- Model of Python `int(str)`; `none` models a raised `ValueError`. -/
def pyInt (l : List Char) : Option Int := pyIntCore (trimWs l)

/-- Model of Python `str.split(":")`: splits at every colon, keeping empty
pieces. -/
def splitOnColon : List Char → List (List Char)
  | [] => [[]]
  | c :: rest =>
    if c = ':' then [] :: splitOnColon rest
    else
      match splitOnColon rest with
      | [] => [[c]]
      | g :: gs => (c :: g) :: gs

/-- Decimal digits of `n`, most significant first (empty for `0`); the first
argument is structural fuel, always called with `fuel = n`. -/
def natToCharsAux : Nat → Nat → List Char
  | 0, _ => []
  | _ + 1, 0 => []
  | fuel + 1, n + 1 => natToCharsAux fuel ((n + 1) / 10) ++ [Nat.digitChar ((n + 1) % 10)]

/-- Decimal representation of a natural number (empty for `0`). -/
def natToChars (n : Nat) : List Char := natToCharsAux n n

/-- Model of Python `str(n)` for a natural number. -/
def pyStr (n : Nat) : List Char := if n = 0 then ['0'] else natToChars n

/-- Model of the Python f-string conversion `{v:02d}`: zero-pad to width 2,
the sign counting toward the width. -/
def pyFmt02 (v : Int) : List Char :=
  if v < 0 then '-' :: (List.replicate (1 - (natToChars v.natAbs).length) '0' ++ natToChars v.natAbs)
  else List.replicate (2 - (natToChars v.natAbs).length) '0' ++ natToChars v.natAbs

/-! ### Time parsing and formatting (cli.py, `parse_time` / `format_time`) -/

/-- Embedding of `parse_time` (cli.py lines 503-516). A `none` result models
a raised `ValueError`, whether raised explicitly or by `int()`. -/
def parse_time (time_str : List Char) : Option Int :=
  if pyIsDigit time_str then pyInt time_str
  else
    match splitOnColon time_str with
    | [minutes, seconds] => do
        let m ← pyInt minutes
        let s ← pyInt seconds
        pure (m * 60 + s)
    | [hours, minutes, seconds] => do
        let h ← pyInt hours
        let m ← pyInt minutes
        let s ← pyInt seconds
        pure (h * 3600 + m * 60 + s)
    | _ => none

/-- Embedding of `format_time` (cli.py lines 519-524), with Python's floored
division and nonnegative-for-positive-divisor modulo. -/
def format_time (seconds : Int) : List Char :=
  pyFmt02 (seconds.fdiv 3600) ++ ':' ::
    pyFmt02 ((seconds.fmod 3600).fdiv 60) ++ ':' :: pyFmt02 (seconds.fmod 60)

/-! ### Support lemmas for digit strings -/

theorem char_toNat_inj {c d : Char} (h : c.toNat = d.toNat) : c = d := by
  rw [← Char.ofNat_toNat c, h, Char.ofNat_toNat]

theorem isAsciiDigit_ne_colon {c : Char} (h : isAsciiDigit c = true) : c ≠ ':' := by
  intro hc
  subst hc
  simp [isAsciiDigit] at h

theorem isAsciiDigit_not_ws {c : Char} (h : isAsciiDigit c = true) :
    c.isWhitespace = false := by
  have h32 : c ≠ ' ' := fun hc => absurd (hc ▸ h) (by decide)
  have h9 : c ≠ '\t' := fun hc => absurd (hc ▸ h) (by decide)
  have h13 : c ≠ '\r' := fun hc => absurd (hc ▸ h) (by decide)
  have h10 : c ≠ '\n' := fun hc => absurd (hc ▸ h) (by decide)
  simp [Char.isWhitespace, h32, h9, h13, h10]

theorem digitsVal_append_singleton (l : List Char) (c : Char) :
    digitsVal (l ++ [c]) = 10 * digitsVal l + (c.toNat - 48) := by
  simp [digitsVal, List.foldl_append]

theorem digitChar_toNat {d : Nat} (h : d < 10) : (Nat.digitChar d).toNat = 48 + d := by
  interval_cases d <;> rfl

theorem digitChar_isDigit {d : Nat} (h : d < 10) : isAsciiDigit (Nat.digitChar d) = true := by
  interval_cases d <;> rfl

theorem natToCharsAux_spec :
    ∀ fuel n, n ≤ fuel →
      (∀ c ∈ natToCharsAux fuel n, isAsciiDigit c = true) ∧
        digitsVal (natToCharsAux fuel n) = n := by
  intro fuel
  induction fuel with
  | zero =>
    intro n hn
    interval_cases n
    simp [natToCharsAux, digitsVal]
  | succ fuel ih =>
    intro n hn
    match n with
    | 0 => simp [natToCharsAux, digitsVal]
    | n + 1 =>
      have hlt : (n + 1) / 10 < n + 1 := Nat.div_lt_self (Nat.succ_pos n) (by norm_num)
      have hdiv : (n + 1) / 10 ≤ fuel :=
        Nat.le_trans (Nat.le_of_lt_succ hlt) (Nat.le_of_succ_le_succ hn)
      obtain ⟨hall, hval⟩ := ih ((n + 1) / 10) hdiv
      have hmod : (n + 1) % 10 < 10 := Nat.mod_lt _ (by norm_num)
      constructor
      · intro c hc
        simp only [natToCharsAux, List.mem_append, List.mem_singleton] at hc
        rcases hc with hc | hc
        · exact hall c hc
        · subst hc; exact digitChar_isDigit hmod
      · rw [natToCharsAux, digitsVal_append_singleton, hval, digitChar_toNat hmod]
        omega

theorem natToChars_digits {n : Nat} : ∀ c ∈ natToChars n, isAsciiDigit c = true :=
  (natToCharsAux_spec n n le_rfl).1

theorem natToChars_val (n : Nat) : digitsVal (natToChars n) = n :=
  (natToCharsAux_spec n n le_rfl).2

/-- The zero-padded digit block used by `pyFmt02` for nonnegative values. -/
def pad2 (m : Nat) : List Char :=
  List.replicate (2 - (natToChars m).length) '0' ++ natToChars m

theorem pyFmt02_ofNat (m : Nat) : pyFmt02 (Int.ofNat m) = pad2 m := by
  simp [pyFmt02, pad2]

theorem pad2_digits {m : Nat} : ∀ c ∈ pad2 m, isAsciiDigit c = true := by
  intro c hc
  simp only [pad2, List.mem_append, List.mem_replicate] at hc
  rcases hc with ⟨-, hc⟩ | hc
  · subst hc; rfl
  · exact natToChars_digits c hc

theorem digitsVal_replicate_zero (j : Nat) (l : List Char) :
    digitsVal (List.replicate j '0' ++ l) = digitsVal l := by
  induction j with
  | zero => simp
  | succ j ih =>
    rw [List.replicate_succ, List.cons_append]
    simpa [digitsVal] using ih

theorem pad2_val (m : Nat) : digitsVal (pad2 m) = m := by
  rw [pad2, digitsVal_replicate_zero, natToChars_val]

theorem pad2_ne_nil (m : Nat) : pad2 m ≠ [] := by
  rw [pad2]
  rcases h : natToChars m with _ | ⟨c, rest⟩
  · simp [h]
  · simp

theorem dropWhile_eq_self_of_none {p : Char → Bool} {l : List Char}
    (h : ∀ c ∈ l, p c = false) : l.dropWhile p = l := by
  cases l with
  | nil => rfl
  | cons c rest => rw [List.dropWhile_cons_of_neg (by simp [h c (List.mem_cons_self c rest)])]

theorem trimWs_of_digits {l : List Char} (h : ∀ c ∈ l, isAsciiDigit c = true) :
    trimWs l = l := by
  have hws : ∀ c ∈ l, c.isWhitespace = false := fun c hc => isAsciiDigit_not_ws (h c hc)
  have hws' : ∀ c ∈ l.reverse, c.isWhitespace = false := by
    intro c hc; exact hws c (List.mem_reverse.1 hc)
  rw [trimWs, dropWhile_eq_self_of_none hws, dropWhile_eq_self_of_none hws',
    List.reverse_reverse]

theorem pyDigitsTail_of_digits {l : List Char} (h : ∀ c ∈ l, isAsciiDigit c = true) :
    pyDigitsTail l = true := by
  induction l with
  | nil => rfl
  | cons c rest ih =>
    have hc : isAsciiDigit c = true := h c (List.mem_cons_self c rest)
    have hne : c ≠ '_' := by
      intro hc'; subst hc'; simp [isAsciiDigit] at hc
    simp only [pyDigitsTail, if_neg hne]
    rw [hc, ih (fun d hd => h d (List.mem_cons_of_mem c hd))]
    rfl

theorem pyDigits_of_digits {l : List Char} (hne : l ≠ [])
    (h : ∀ c ∈ l, isAsciiDigit c = true) : pyDigits l = true := by
  cases l with
  | nil => exact absurd rfl hne
  | cons c rest =>
    rw [pyDigits, h c (List.mem_cons_self c rest),
      pyDigitsTail_of_digits (fun d hd => h d (List.mem_cons_of_mem c hd))]
    rfl

theorem filter_ne_underscore_of_digits {l : List Char}
    (h : ∀ c ∈ l, isAsciiDigit c = true) : l.filter (fun c => c != '_') = l := by
  apply List.filter_eq_self.2
  intro c hc
  have hd := h c hc
  have : c ≠ '_' := by intro hc'; subst hc'; simp [isAsciiDigit] at hd
  simp [this]

theorem pyInt_of_digits {l : List Char} (hne : l ≠ [])
    (h : ∀ c ∈ l, isAsciiDigit c = true) : pyInt l = some (digitsVal l) := by
  rw [pyInt, trimWs_of_digits h]
  cases l with
  | nil => exact absurd rfl hne
  | cons c rest =>
    have hc : isAsciiDigit c = true := h c (List.mem_cons_self c rest)
    have hplus : c ≠ '+' := by intro hc'; subst hc'; simp [isAsciiDigit] at hc
    have hminus : c ≠ '-' := by intro hc'; subst hc'; simp [isAsciiDigit] at hc
    rw [pyIntCore, if_neg hplus, if_neg hminus, pyNatPart,
      if_pos (pyDigits_of_digits (by simp) h), filter_ne_underscore_of_digits h]
    rfl

theorem pyInt_pad2 (m : Nat) : pyInt (pad2 m) = some (Int.ofNat m) := by
  rw [pyInt_of_digits (pad2_ne_nil m) pad2_digits, pad2_val]
  rfl

/-! ### `splitOnColon` lemmas -/

theorem splitOnColon_no_colon {l : List Char} (h : ∀ c ∈ l, c ≠ ':') :
    splitOnColon l = [l] := by
  induction l with
  | nil => rfl
  | cons c rest ih =>
    rw [splitOnColon, if_neg (h c (List.mem_cons_self c rest)),
      ih (fun d hd => h d (List.mem_cons_of_mem c hd))]

theorem splitOnColon_ne_nil (l : List Char) : splitOnColon l ≠ [] := by
  cases l with
  | nil => simp [splitOnColon]
  | cons c rest =>
    rw [splitOnColon]
    split
    · simp
    · rcases h : splitOnColon rest with _ | ⟨g, gs⟩ <;> simp

theorem splitOnColon_append {a : List Char} (rest : List Char) (h : ∀ c ∈ a, c ≠ ':') :
    splitOnColon (a ++ ':' :: rest) = a :: splitOnColon rest := by
  induction a with
  | nil => simp [splitOnColon]
  | cons c a' ih =>
    rw [List.cons_append, splitOnColon, if_neg (h c (List.mem_cons_self c a')),
      ih (fun d hd => h d (List.mem_cons_of_mem c hd))]

theorem pyIsDigit_of_mem_colon {l : List Char} (h : ':' ∈ l) : pyIsDigit l = false := by
  have hall : l.all isAsciiDigit = false := by
    apply Bool.eq_false_iff.2
    intro hall
    exact isAsciiDigit_ne_colon (List.all_eq_true.mp hall ':' h) rfl
  simp [pyIsDigit, hall]

/-! ### C10: format-then-parse round trip -/

theorem format_time_ofNat (k : Nat) :
    format_time (Int.ofNat k) =
      pad2 (k / 3600) ++ ':' :: pad2 (k % 3600 / 60) ++ ':' :: pad2 (k % 60) := by
  have h1 : (Int.ofNat k).fdiv 3600 = Int.ofNat (k / 3600) := (Int.ofNat_fdiv k 3600).symm
  have h2 : (Int.ofNat k).fmod 3600 = Int.ofNat (k % 3600) := (Int.ofNat_fmod k 3600).symm
  have h3 : (Int.ofNat (k % 3600)).fdiv 60 = Int.ofNat (k % 3600 / 60) :=
    (Int.ofNat_fdiv (k % 3600) 60).symm
  have h4 : (Int.ofNat k).fmod 60 = Int.ofNat (k % 60) := (Int.ofNat_fmod k 60).symm
  rw [format_time, h1, h2, h3, h4, pyFmt02_ofNat, pyFmt02_ofNat, pyFmt02_ofNat]

theorem parse_time_three_parts {a b c : List Char}
    (ha : ∀ x ∈ a, isAsciiDigit x = true) (hb : ∀ x ∈ b, isAsciiDigit x = true)
    (hc : ∀ x ∈ c, isAsciiDigit x = true)
    (hna : a ≠ []) (hnb : b ≠ []) (hnc : c ≠ []) :
    parse_time (a ++ ':' :: b ++ ':' :: c) =
      some ((digitsVal a : Int) * 3600 + (digitsVal b : Int) * 60 + (digitsVal c : Int)) := by
  have hshape : a ++ ':' :: b ++ ':' :: c = a ++ ':' :: (b ++ ':' :: c) := by simp
  rw [hshape]
  have hmem : ':' ∈ a ++ ':' :: (b ++ ':' :: c) := by simp
  have hsplit : splitOnColon (a ++ ':' :: (b ++ ':' :: c)) = [a, b, c] := by
    rw [splitOnColon_append (b ++ ':' :: c)
        (fun x hx => isAsciiDigit_ne_colon (ha x hx)),
      splitOnColon_append c (fun x hx => isAsciiDigit_ne_colon (hb x hx)),
      splitOnColon_no_colon (fun x hx => isAsciiDigit_ne_colon (hc x hx))]
  rw [parse_time, if_neg (by simp [pyIsDigit_of_mem_colon hmem]), hsplit]
  simp [pyInt_of_digits hna ha, pyInt_of_digits hnb hb, pyInt_of_digits hnc hc]

/-- C10: parsing the string produced by formatting a non-negative number of
seconds as `HH:MM:SS` recovers that number exactly. -/
theorem parse_format_time_roundtrip (v : Int) (hv : 0 ≤ v) :
    parse_time (format_time v) = some v := by
  obtain ⟨k, rfl⟩ : ∃ k : Nat, v = Int.ofNat k :=
    ⟨v.toNat, (Int.toNat_of_nonneg hv).symm⟩
  rw [format_time_ofNat,
    parse_time_three_parts pad2_digits pad2_digits pad2_digits
      (pad2_ne_nil _) (pad2_ne_nil _) (pad2_ne_nil _),
    pad2_val, pad2_val, pad2_val]
  congr 1
  have h60 : k % 3600 % 60 = k % 60 := Nat.mod_mod_of_dvd k (by norm_num)
  have hd1 := Nat.div_add_mod k 3600
  have hd2 := Nat.div_add_mod (k % 3600) 60
  simp only [Int.ofNat_eq_coe]
  push_cast
  omega

/-- Witness for `parse_format_time_roundtrip` at 3723 seconds. -/
theorem parse_format_time_roundtrip_witness :
    0 ≤ (3723 : Int) ∧ parse_time (format_time 3723) = some 3723 :=
  ⟨by decide, parse_format_time_roundtrip 3723 (by decide)⟩

/-- C2: the code contradicts the repository's own tests: `"1:30.5"` (which
tests expect to parse to 90.5) raises `ValueError` (`none`), while `"-1:30"`
(which tests expect to raise) parses to `-30`. -/
theorem parse_time_fractional_and_negative :
    parse_time ("1:30.5".data) = none ∧ parse_time ("-1:30".data) = some (-30) := by
  constructor <;> decide

/-! ### Configuration and the movie index cache -/

/-- A filesystem path as its sequence of components (pathlib `parts`). -/
abbrev MPath := List String

/-- One element of the cache's `movies` array (cli.py, `build_movie_cache`):
the stored path string is kept in parsed component form. -/
structure MovieEntry where
  path : MPath
  size : Int
  mtime : ℚ
deriving DecidableEq

/-- The `settings` section of the configuration (cli.py, class `Settings`);
only the fields the verified functions read. -/
structure Settings where
  default_audio_codec : String
  default_sample_rate : Nat
  default_audio_channels : Nat
  default_audio_language : List Char
  preserve_all_audio : Bool
  follow_symlinks : Bool
  video_extensions : List String
  cache_enabled : Bool
  cache_ttl_hours : Int

/-- The persisted movie index cache record: a JSON object in which each of
the five expected keys may be absent. -/
structure CacheJson where
  timestamp : Option ℚ
  movies_dir : Option String
  movies : Option (List MovieEntry)
  extensions : Option (List String)
  follow_symlinks : Option Bool
deriving DecidableEq

/-- Embedding of `is_cache_valid` (cli.py lines 269-291); `now` models
`time.time()`, with exact rational arithmetic in place of floats. -/
def is_cache_valid (cache_data : CacheJson) (movies_dir : String) (cfg : Settings)
    (now : ℚ) : Bool :=
  if cache_data = ⟨none, none, none, none, none⟩ then false
  else if ¬(cache_data.timestamp.isSome = true ∧ cache_data.movies_dir.isSome = true ∧
      cache_data.movies.isSome = true ∧ cache_data.extensions.isSome = true ∧
      cache_data.follow_symlinks.isSome = true) then false
  else if cache_data.movies_dir ≠ some movies_dir then false
  else if cache_data.extensions ≠ some cfg.video_extensions then false
  else if cache_data.follow_symlinks ≠ some cfg.follow_symlinks then false
  else if (now - cache_data.timestamp.getD 0) / 3600 > (cfg.cache_ttl_hours : ℚ) then false
  else true

/-- C1: `is_cache_valid` holds exactly when all required fields are present,
the root directory, extension list (order-sensitively) and symlink flag match
the configuration, and the elapsed time is at most `cache_ttl_hours * 3600`
seconds — the boundary inclusive. -/
theorem is_cache_valid_iff (cache_data : CacheJson) (movies_dir : String)
    (cfg : Settings) (now : ℚ) :
    is_cache_valid cache_data movies_dir cfg now = true ↔
      ∃ ts : ℚ, cache_data.timestamp = some ts ∧
        cache_data.movies.isSome = true ∧
        cache_data.movies_dir = some movies_dir ∧
        cache_data.extensions = some cfg.video_extensions ∧
        cache_data.follow_symlinks = some cfg.follow_symlinks ∧
        now - ts ≤ (cfg.cache_ttl_hours : ℚ) * 3600 := by
  obtain ⟨ots, omd, omv, oex, ofl⟩ := cache_data
  rcases ots with - | ts
  · simp [is_cache_valid]
  rcases omd with - | md
  · simp [is_cache_valid]
  rcases omv with - | mv
  · simp [is_cache_valid]
  rcases oex with - | ex
  · simp [is_cache_valid]
  rcases ofl with - | fl
  · simp [is_cache_valid]
  simp only [is_cache_valid]
  rw [if_neg (by simp), if_neg (by simp)]
  by_cases hmd : md = movies_dir
  · by_cases hex : ex = cfg.video_extensions
    · by_cases hfl : fl = cfg.follow_symlinks
      · subst hmd; subst hex; subst hfl
        rw [if_neg (by simp), if_neg (by simp), if_neg (by simp)]
        simp only [Option.getD_some]
        by_cases ht : (now - ts) / 3600 > (cfg.cache_ttl_hours : ℚ)
        · rw [if_pos ht]
          have hgt : (cfg.cache_ttl_hours : ℚ) * 3600 < now - ts := by
            rwa [gt_iff_lt, lt_div_iff₀ (by norm_num : (0:ℚ) < 3600)] at ht
          simp only [Bool.false_eq_true, false_iff, not_exists]
          rintro ts' ⟨hts', -, -, -, -, hle⟩
          rw [Option.some.injEq] at hts'
          subst hts'
          linarith
        · rw [if_neg ht]
          have hle : now - ts ≤ (cfg.cache_ttl_hours : ℚ) * 3600 := by
            rw [gt_iff_lt, not_lt, div_le_iff₀ (by norm_num : (0:ℚ) < 3600)] at ht
            linarith
          exact ⟨fun _ => ⟨ts, by simp, by simp, by simp, by simp, by simp, hle⟩, fun _ => rfl⟩
      · simp only [ne_eq, Option.some.injEq]
        rw [if_neg (by simpa using hmd), if_neg (by simpa using hex), if_pos (by simpa using hfl)]
        simp [hfl]
    · simp only [ne_eq, Option.some.injEq]
      rw [if_neg (by simpa using hmd), if_pos (by simpa using hex)]
      simp [hex]
  · simp only [ne_eq, Option.some.injEq]
    rw [if_pos (by simpa using hmd)]
    simp [hmd]

/-! ### Audio stream selection -/

/-- An audio stream descriptor as produced by `detect_audio_streams`
(cli.py lines 542-580): the fields of the probe's per-stream dictionary. -/
structure AudioStream where
  index : Nat
  codec_name : String
  channels : Nat
  sample_rate : Nat
  language : List Char
  title : String
  stream_index : Nat
deriving DecidableEq

/-- Embedding of `select_audio_stream` (cli.py lines 583-598): first an exact
language match, then a `startswith(preferred[:2])` match, then the first
stream; `none` only for an empty list. -/
def select_audio_stream (audio_streams : List AudioStream)
    (preferred_language : List Char) : Option AudioStream :=
  if audio_streams.isEmpty then none
  else
    match audio_streams.find? (fun st => st.language == preferred_language) with
    | some st => some st
    | none =>
      match audio_streams.find?
          (fun st => (preferred_language.take 2).isPrefixOf st.language) with
      | some st => some st
      | none => audio_streams.head?

theorem isPrefixOf_iff_take : ∀ {p l : List Char},
    p.isPrefixOf l = true ↔ l.take p.length = p
  | [], l => by simp [List.isPrefixOf]
  | a :: as, [] => by simp [List.isPrefixOf]
  | a :: as, b :: bs => by
    rw [List.isPrefixOf, List.length_cons, List.take_succ_cons]
    constructor
    · intro h
      rw [Bool.and_eq_true, beq_iff_eq] at h
      obtain ⟨rfl, h2⟩ := h
      rw [isPrefixOf_iff_take.mp h2]
    · intro h
      injection h with h1 h2
      rw [Bool.and_eq_true, beq_iff_eq]
      exact ⟨h1.symm, isPrefixOf_iff_take.mpr h2⟩

theorem take2_prefix_iff {p : List Char} (hp : 2 ≤ p.length) (l : List Char) :
    (p.take 2).isPrefixOf l = (l.take 2 == p.take 2) := by
  have hlen : (p.take 2).length = 2 := by
    rw [List.length_take]
    omega
  by_cases h : (p.take 2).isPrefixOf l = true
  · have heq : l.take 2 = p.take 2 := by
      have h2 := isPrefixOf_iff_take.mp h
      rw [hlen] at h2
      exact h2
    rw [h, heq]
    simp
  · have hne : l.take 2 ≠ p.take 2 := by
      intro he
      exact h (isPrefixOf_iff_take.mpr (by rw [hlen, he]))
    have h1 : (p.take 2).isPrefixOf l = false := Bool.eq_false_iff.2 h
    have h2 : (l.take 2 == p.take 2) = false := by
      simp only [beq_eq_false_iff_ne, ne_eq]
      exact hne
    rw [h1, h2]

theorem select_audio_stream_eq_none_iff (audio_streams : List AudioStream)
    (preferred_language : List Char) :
    select_audio_stream audio_streams preferred_language = none ↔ audio_streams = [] := by
  cases audio_streams with
  | nil => exact ⟨fun _ => rfl, fun _ => rfl⟩
  | cons a l =>
    rw [select_audio_stream, if_neg (by simp)]
    constructor
    · intro h
      rcases hf : (a :: l).find? (fun st => st.language == preferred_language) with - | st
      · rcases hg : (a :: l).find?
            (fun st => (preferred_language.take 2).isPrefixOf st.language) with - | st
        · rw [hf, hg] at h
          simp at h
        · rw [hf, hg] at h
          simp at h
      · rw [hf] at h
        simp at h
    · intro h
      exact absurd h (by simp)

/-- C4: for a preferred tag of at least two characters, the selector returns
the first exact language match; failing that, the first stream whose first
two language characters equal the preferred tag's first two characters;
failing that, the first stream — and `none` exactly on the empty list. -/
theorem select_audio_stream_spec (audio_streams : List AudioStream)
    (preferred_language : List Char) (hp : 2 ≤ preferred_language.length) :
    (select_audio_stream audio_streams preferred_language = none ↔ audio_streams = []) ∧
    (∀ st, audio_streams.find? (fun s => s.language == preferred_language) = some st →
      select_audio_stream audio_streams preferred_language = some st) ∧
    (audio_streams.find? (fun s => s.language == preferred_language) = none →
      ∀ st, audio_streams.find?
          (fun s => s.language.take 2 == preferred_language.take 2) = some st →
        select_audio_stream audio_streams preferred_language = some st) ∧
    (audio_streams.find? (fun s => s.language == preferred_language) = none →
      audio_streams.find?
          (fun s => s.language.take 2 == preferred_language.take 2) = none →
      select_audio_stream audio_streams preferred_language = audio_streams.head?) := by
  have hpred : (fun s : AudioStream => (preferred_language.take 2).isPrefixOf s.language) =
      (fun s : AudioStream => s.language.take 2 == preferred_language.take 2) :=
    funext fun s => take2_prefix_iff hp s.language
  refine ⟨select_audio_stream_eq_none_iff _ _, ?_, ?_, ?_⟩
  · intro st hst
    cases audio_streams with
    | nil => simp at hst
    | cons a l =>
      rw [select_audio_stream, if_neg (by simp), hst]
  · intro hnone st hst
    cases audio_streams with
    | nil => simp at hst
    | cons a l =>
      rw [select_audio_stream, if_neg (by simp), hnone, hpred, hst]
  · intro hnone hnone2
    cases audio_streams with
    | nil => rfl
    | cons a l =>
      rw [select_audio_stream, if_neg (by simp), hnone, hpred, hnone2]

/-- Witness for `select_audio_stream_spec`: with streams `spa`, `eng` and
preference `eng`, the exact match is selected. -/
theorem select_audio_stream_spec_witness :
    select_audio_stream
      [⟨0, "aac", 2, 48000, "spa".data, "", 0⟩, ⟨1, "aac", 2, 48000, "eng".data, "", 1⟩]
      ("eng".data) = some ⟨1, "aac", 2, 48000, "eng".data, "", 1⟩ :=
  (select_audio_stream_spec _ _ (by decide)).2.1 _ (by decide)

/-! ### Paths (pathlib model) -/

/-- pathlib `PurePath.name`: the final component (`""` at the root). -/
def pathName (p : MPath) : String := p.getLast?.getD ""

/-- pathlib `PurePath.parent`: drop the final component; the root is its own
parent. -/
def pathParent (p : MPath) : MPath := p.dropLast

/-- Python `str.rfind('.')`: index of the last dot, if any. -/
def rfindDot (l : List Char) : Option Nat :=
  match l.reverse.findIdx? (fun c => c == '.') with
  | some j => some (l.length - 1 - j)
  | none => none

/-- pathlib `PurePath.stem`: the name without its suffix; the suffix starts
at the last dot when that dot is neither first nor last character. -/
def pyStem (name : List Char) : List Char :=
  match rfindDot name with
  | some i => if 0 < i ∧ i < name.length - 1 then name.take i else name
  | none => name

/-- pathlib `PurePath.suffix`: the final extension including its dot, `[]`
when there is none. -/
def pySuffix (name : List Char) : List Char :=
  match rfindDot name with
  | some i => if 0 < i ∧ i < name.length - 1 then name.drop i else []
  | none => []

/-- Python `str.lower` (ASCII). -/
def pyLower (l : List Char) : List Char := l.map Char.toLower

/-! ### Fuzzy matching (cli.py, `fuzzy_match_movie`) -/

/-- Score of one candidate in `fuzzy_match_movie` (cli.py lines 426-432);
`scorer` stands for the external `fuzz.partial_ratio`, which returns a score
on the 0-100 scale. The parent-directory score enters only when the parent
name differs from the grandparent name. -/
def fuzzyScore (scorer : List Char → List Char → ℚ) (query : List Char)
    (movie_file : MPath) : ℚ :=
  let score := scorer (pyLower query) (pyLower (pyStem (pathName movie_file).data))
  if pathName (pathParent movie_file) ≠ pathName (pathParent (pathParent movie_file)) then
    max score (scorer (pyLower query) (pyLower (pathName (pathParent movie_file)).data))
  else score

/-- Embedding of `fuzzy_match_movie` (cli.py lines 422-438): collect the
candidates scoring strictly above 60, then sort by descending score with a
stable sort (Python `list.sort(key=..., reverse=True)` is stable). -/
def fuzzy_match_movie (scorer : List Char → List Char → ℚ) (query : List Char)
    (movie_files : List MPath) : List (MPath × ℚ) :=
  List.insertionSort (fun a b => a.2 ≥ b.2)
    (movie_files.filterMap fun f =>
      let score := fuzzyScore scorer query f
      if score > 60 then some (f, score) else none)

theorem orderedInsert_score_filter (x : MPath × ℚ) (l : List (MPath × ℚ)) (q : ℚ) :
    (List.orderedInsert (fun a b => a.2 ≥ b.2) x l).filter (fun a => a.2 == q) =
      if x.2 == q then x :: l.filter (fun a => a.2 == q)
      else l.filter (fun a => a.2 == q) := by
  induction l with
  | nil =>
    by_cases hx : (x.2 == q) = true
    · simp [List.orderedInsert, List.filter_cons, hx]
    · simp [List.orderedInsert, List.filter_cons, hx]
  | cons b t ih =>
    rw [List.orderedInsert]
    by_cases hr : x.2 ≥ b.2
    · rw [if_pos hr]
      by_cases hx : (x.2 == q) = true
      · simp [List.filter_cons, hx]
      · simp [List.filter_cons, hx]
    · rw [if_neg hr]
      by_cases hb : (b.2 == q) = true
      · have hx : (x.2 == q) = false := by
          apply Bool.eq_false_iff.2
          intro hxq
          rw [beq_iff_eq] at hb hxq
          exact hr (by rw [hxq, hb])
        simp [List.filter_cons, hb, ih, hx]
      · simp [List.filter_cons, hb, ih]

theorem insertionSort_score_filter (l : List (MPath × ℚ)) (q : ℚ) :
    (List.insertionSort (fun a b => a.2 ≥ b.2) l).filter (fun a => a.2 == q) =
      l.filter (fun a => a.2 == q) := by
  induction l with
  | nil => rfl
  | cons x t ih =>
    rw [List.insertionSort, orderedInsert_score_filter, List.filter_cons]
    by_cases hx : (x.2 == q) = true
    · rw [if_pos hx, if_pos hx, ih]
    · rw [if_neg (by simpa using hx), if_neg hx, ih]

theorem filterMap_scored (scorer : List Char → List Char → ℚ) (query : List Char)
    (movie_files : List MPath) :
    (movie_files.filterMap fun f =>
        let score := fuzzyScore scorer query f
        if score > 60 then some (f, score) else none) =
      (movie_files.map fun f => (f, fuzzyScore scorer query f)).filter
        (fun a => a.2 > 60) := by
  induction movie_files with
  | nil => rfl
  | cons f t ih =>
    simp only [List.filterMap_cons, List.map_cons, List.filter_cons]
    by_cases h : fuzzyScore scorer query f > 60
    · simp only [if_pos h, ih]
      rw [if_pos (by simpa using h)]
    · simp only [if_neg h, ih]
      rw [if_neg (by simpa using h)]

/-- C3: for every scoring function, the fuzzy selector returns a list sorted
by descending score in which, for every score value, the entries are exactly
the candidates whose `fuzzyScore` (stem score, maximized with the parent
directory score only when the parent name differs from the grandparent name)
strictly exceeds 60, in their original input order — a stable
filter-and-sort. -/
theorem fuzzy_match_movie_spec (scorer : List Char → List Char → ℚ)
    (query : List Char) (movie_files : List MPath) :
    (fuzzy_match_movie scorer query movie_files).Sorted (fun a b => a.2 ≥ b.2) ∧
      ∀ q : ℚ,
        (fuzzy_match_movie scorer query movie_files).filter (fun a => a.2 == q) =
          ((movie_files.map fun f => (f, fuzzyScore scorer query f)).filter
              (fun a => a.2 > 60)).filter (fun a => a.2 == q) := by
  haveI htot : IsTotal (MPath × ℚ) (fun a b => a.2 ≥ b.2) :=
    ⟨fun a b => le_total b.2 a.2⟩
  haveI htr : IsTrans (MPath × ℚ) (fun a b => a.2 ≥ b.2) :=
    ⟨fun a b c hab hbc => le_trans hbc hab⟩
  constructor
  · rw [fuzzy_match_movie]
    exact List.sorted_insertionSort (fun a b : MPath × ℚ => a.2 ≥ b.2) _
  · intro q
    rw [fuzzy_match_movie, insertionSort_score_filter, filterMap_scored]

/-! ### Output filename generation (cli.py, `generate_output_filename`) -/

/-- Maximal run of non-newline characters (regex `.*` without `DOTALL`):
returns the remainder after the run. -/
def dropToNewline : List Char → List Char
  | [] => []
  | c :: rest => if c = '\n' then c :: rest else dropToNewline rest

/-- Match `\.(19|20)\d{2}\..*` at the head of the string; on success return
the unmatched remainder. -/
def matchYearTag : List Char → Option (List Char)
  | '.' :: c1 :: c2 :: d1 :: d2 :: '.' :: rest =>
    if ((c1 = '1' ∧ c2 = '9') ∨ (c1 = '2' ∧ c2 = '0')) ∧
        isAsciiDigit d1 = true ∧ isAsciiDigit d2 = true then
      some (dropToNewline rest)
    else none
  | _ => none

/-- Case-insensitive literal match; on success return the remainder. -/
def matchLitCI : List Char → List Char → Option (List Char)
  | [], rest => some rest
  | _ :: _, [] => none
  | p :: ps, c :: cs => if p.toLower = c.toLower then matchLitCI ps cs else none

/-- One alternative of the quality-tag pattern: the literal, then a dot,
then `.*`. -/
def matchTagDot (tag : List Char) (l : List Char) : Option (List Char) :=
  match matchLitCI tag l with
  | some ('.' :: rest2) => some (dropToNewline rest2)
  | _ => none

/-- Match `\.(BluRay|WEB|HDTV|DVDRip)\..*` (case-insensitive) at the head. -/
def matchQualityTag : List Char → Option (List Char)
  | '.' :: rest =>
    (matchTagDot "bluray".data rest).orElse fun _ =>
      (matchTagDot "web".data rest).orElse fun _ =>
        (matchTagDot "hdtv".data rest).orElse fun _ =>
          matchTagDot "dvdrip".data rest
  | _ => none

/-- Match `\.x26[45].*` (case-insensitive) at the head. -/
def matchCodecTag : List Char → Option (List Char)
  | '.' :: x :: '2' :: '6' :: d :: rest =>
    if x.toLower = 'x' ∧ (d = '4' ∨ d = '5') then some (dropToNewline rest) else none
  | _ => none

/-- `re.sub(pat, "", s)` for a matcher that consumes at least one character:
replace every leftmost non-overlapping match by the empty string. `fuel` is
structural and is always instantiated with the string length. -/
def reSubAux (matchAt : List Char → Option (List Char)) : Nat → List Char → List Char
  | 0, l => l
  | _ + 1, [] => []
  | fuel + 1, c :: rest =>
    match matchAt (c :: rest) with
    | some rem => reSubAux matchAt fuel rem
    | none => c :: reSubAux matchAt fuel rest

def reSub (matchAt : List Char → Option (List Char)) (l : List Char) : List Char :=
  reSubAux matchAt l.length l

/-- Python `str.replace(".", "")`. -/
def removeDots (l : List Char) : List Char := l.filter (fun c => c != '.')

/-- Python `str.replace(old, new, 1)` for single characters. -/
def replaceFirstChar (old new : Char) : List Char → List Char
  | [] => []
  | c :: rest => if c = old then new :: rest else c :: replaceFirstChar old new rest

/-- Embedding of `generate_output_filename` (cli.py lines 527-539). -/
def generate_output_filename (movie_file : MPath)
    (start_seconds end_seconds : Int) : List Char :=
  let name1 := pyStem (pathName movie_file).data
  let name2 := reSub matchYearTag name1
  let name3 := reSub matchQualityTag name2
  let name4 := removeDots (reSub matchCodecTag name3)
  let start_formatted :=
    replaceFirstChar ':' 'm' (replaceFirstChar ':' 'h' (format_time start_seconds)) ++ ['s']
  let end_formatted :=
    replaceFirstChar ':' 'm' (replaceFirstChar ':' 'h' (format_time end_seconds)) ++ ['s']
  name4 ++ '_' :: start_formatted ++ "_to_".data ++ end_formatted ++ ".mp4".data

/-- C8: the generated output filename for `Iron.Man.2008.BluRay.x264.mkv`
clipped from 60s to 120s strips the year, release and codec tags and the
dots, and renders the range in `HHhMMmSSs` form. -/
theorem generate_output_filename_ironman :
    generate_output_filename ["Iron.Man.2008.BluRay.x264.mkv"] 60 120 =
      "IronMan_00h01m00s_to_00h02m00s.mp4".data := by
  decide

/-! ### ffmpeg command construction (cli.py, `build_ffmpeg_command`) -/

/-- Embedding of `build_ffmpeg_command` (cli.py lines 601-682). The result of
`detect_audio_streams` is passed in as `audio_streams`; console output and
the ffprobe warning are not modelled. Python's `audio_lang or default` treats
an empty string as falsy. -/
def build_ffmpeg_command (movie_file : List Char)
    (start_seconds duration_seconds : Int) (output_file ffmpeg_path : List Char)
    (preserve_audio : Bool) (audio_lang : Option (List Char)) (stereo : Bool)
    (cfg : Settings) (audio_streams : List AudioStream) : List (List Char) :=
  let start_time := format_time start_seconds
  let duration_time := format_time duration_seconds
  let command := [ffmpeg_path, "-y".data, "-ss".data, start_time, "-i".data, movie_file,
    "-t".data, duration_time, "-c:v".data, "copy".data]
  if preserve_audio then
    command ++ ["-map".data, "0:v:0".data, "-map".data, "0:a?".data] ++
      (if stereo then ["-ac".data, pyStr cfg.default_audio_channels] else []) ++
      ["-c:a".data, cfg.default_audio_codec.data,
        "-ar".data, pyStr cfg.default_sample_rate] ++
      [output_file]
  else
    let target_language :=
      match audio_lang with
      | some l => if l = [] then cfg.default_audio_language else l
      | none => cfg.default_audio_language
    let mapping :=
      if audio_streams.isEmpty then []
      else
        match select_audio_stream audio_streams target_language with
        | some st => ["-map".data, "0:v:0".data,
            "-map".data, "0:a:".data ++ pyStr st.index]
        | none => []
    command ++ mapping ++
      (if stereo then ["-ac".data, pyStr cfg.default_audio_channels] else []) ++
      ["-c:a".data, cfg.default_audio_codec.data,
        "-ar".data, pyStr cfg.default_sample_rate] ++
      [output_file]

mutual

/-- The values paired with `-map` options in an argument vector. -/
def mapArgs : List (List Char) → List (List Char)
  | [] => []
  | a :: rest => if a = "-map".data then mapArgsVal rest else mapArgs rest

/-- The element following a `-map` token, then the remaining map values. -/
def mapArgsVal : List (List Char) → List (List Char)
  | [] => []
  | b :: rest2 => b :: mapArgs rest2

end

theorem mapArgs_cons_ne {a : List Char} (l : List (List Char))
    (ha : a ≠ "-map".data) : mapArgs (a :: l) = mapArgs l := by
  rw [mapArgs, if_neg ha]

theorem mapArgs_map_cons (b : List Char) (l : List (List Char)) :
    mapArgs ("-map".data :: b :: l) = b :: mapArgs l := by
  rw [mapArgs, if_pos rfl, mapArgsVal]

theorem format_time_ne_map (v : Int) : format_time v ≠ "-map".data := by
  intro h
  have hmem : ':' ∈ format_time v := by
    rw [format_time]
    simp
  rw [h] at hmem
  exact absurd hmem (by decide)

/-- C5 counterexample: in selective (non-preserve) mode with zero probed
audio streams, the builder emits no `-map` argument at all, so it does not
always map exactly one video and one audio stream. -/
theorem build_ffmpeg_command_no_streams :
    mapArgs (build_ffmpeg_command "in.mkv".data 0 10 "out.mp4".data "ffmpeg".data
      false none true
      ⟨"pcm_s16le", 48000, 2, "eng".data, false, true, [".mkv"], true, 24⟩ []) = [] := by
  decide

/-- C5 (amended): in preserve-audio mode the builder's stream mappings are
exactly the generic pair `0:v:0`, `0:a?` — never a specific stream-index
audio mapping; in selective mode, whenever at least one audio stream was
detected, they are exactly one video mapping plus one specific audio
mapping. The hypotheses only rule out free-string parameters colliding with
the literal `-map` token. -/
theorem build_ffmpeg_command_mappings (movie_file : List Char)
    (start_seconds duration_seconds : Int) (output_file ffmpeg_path : List Char)
    (audio_lang : Option (List Char)) (stereo : Bool) (cfg : Settings)
    (audio_streams : List AudioStream)
    (hmf : movie_file ≠ "-map".data) (hout : output_file ≠ "-map".data)
    (hff : ffmpeg_path ≠ "-map".data)
    (hcodec : cfg.default_audio_codec.data ≠ "-map".data)
    (hch : pyStr cfg.default_audio_channels ≠ "-map".data)
    (hsr : pyStr cfg.default_sample_rate ≠ "-map".data) :
    mapArgs (build_ffmpeg_command movie_file start_seconds duration_seconds
        output_file ffmpeg_path true audio_lang stereo cfg audio_streams) =
      ["0:v:0".data, "0:a?".data] ∧
    (audio_streams ≠ [] →
      ∃ i : Nat,
        mapArgs (build_ffmpeg_command movie_file start_seconds duration_seconds
            output_file ffmpeg_path false audio_lang stereo cfg audio_streams) =
          ["0:v:0".data, "0:a:".data ++ pyStr i]) := by
  constructor
  · simp only [build_ffmpeg_command]
    rw [if_pos trivial]
    simp only [List.cons_append, List.nil_append, List.append_assoc]
    rw [mapArgs_cons_ne _ hff, mapArgs_cons_ne _ (by decide),
      mapArgs_cons_ne _ (by decide), mapArgs_cons_ne _ (format_time_ne_map _),
      mapArgs_cons_ne _ (by decide), mapArgs_cons_ne _ hmf,
      mapArgs_cons_ne _ (by decide), mapArgs_cons_ne _ (format_time_ne_map _),
      mapArgs_cons_ne _ (by decide), mapArgs_cons_ne _ (by decide),
      mapArgs_map_cons, mapArgs_map_cons]
    cases stereo with
    | false =>
      rw [if_neg Bool.false_ne_true]
      simp only [List.nil_append]
      rw [mapArgs_cons_ne _ (by decide), mapArgs_cons_ne _ hcodec,
        mapArgs_cons_ne _ (by decide), mapArgs_cons_ne _ hsr,
        mapArgs_cons_ne _ hout]
      rfl
    | true =>
      rw [if_pos rfl]
      simp only [List.cons_append, List.nil_append]
      rw [mapArgs_cons_ne _ (by decide), mapArgs_cons_ne _ hch,
        mapArgs_cons_ne _ (by decide), mapArgs_cons_ne _ hcodec,
        mapArgs_cons_ne _ (by decide), mapArgs_cons_ne _ hsr,
        mapArgs_cons_ne _ hout]
      rfl
  · intro hne
    rcases hsel : select_audio_stream audio_streams
        (match audio_lang with
          | some l => if l = [] then cfg.default_audio_language else l
          | none => cfg.default_audio_language) with - | st
    · exact absurd ((select_audio_stream_eq_none_iff _ _).mp hsel) hne
    · refine ⟨st.index, ?_⟩
      simp only [build_ffmpeg_command, if_neg Bool.false_ne_true]
      rw [if_neg (by simpa [List.isEmpty_iff] using hne), hsel]
      simp only [List.cons_append, List.nil_append, List.append_assoc]
      rw [mapArgs_cons_ne _ hff, mapArgs_cons_ne _ (by decide),
        mapArgs_cons_ne _ (by decide), mapArgs_cons_ne _ (format_time_ne_map _),
        mapArgs_cons_ne _ (by decide), mapArgs_cons_ne _ hmf,
        mapArgs_cons_ne _ (by decide), mapArgs_cons_ne _ (format_time_ne_map _),
        mapArgs_cons_ne _ (by decide), mapArgs_cons_ne _ (by decide),
        mapArgs_map_cons, mapArgs_map_cons]
      cases stereo with
      | false =>
        rw [if_neg Bool.false_ne_true]
        simp only [List.nil_append]
        rw [mapArgs_cons_ne _ (by decide), mapArgs_cons_ne _ hcodec,
          mapArgs_cons_ne _ (by decide), mapArgs_cons_ne _ hsr,
          mapArgs_cons_ne _ hout]
        rfl
      | true =>
        rw [if_pos rfl]
        simp only [List.cons_append, List.nil_append]
        rw [mapArgs_cons_ne _ (by decide), mapArgs_cons_ne _ hch,
          mapArgs_cons_ne _ (by decide), mapArgs_cons_ne _ hcodec,
          mapArgs_cons_ne _ (by decide), mapArgs_cons_ne _ hsr,
          mapArgs_cons_ne _ hout]
        rfl

/-- Witness for `build_ffmpeg_command_mappings` at concrete arguments. -/
theorem build_ffmpeg_command_mappings_witness :
    mapArgs (build_ffmpeg_command "in.mkv".data 0 10 "out.mp4".data "ffmpeg".data
        true none true
        ⟨"pcm_s16le", 48000, 2, "eng".data, false, true, [".mkv"], true, 24⟩
        [⟨0, "aac", 2, 48000, "eng".data, "", 0⟩]) =
      ["0:v:0".data, "0:a?".data] ∧
    ∃ i : Nat,
      mapArgs (build_ffmpeg_command "in.mkv".data 0 10 "out.mp4".data "ffmpeg".data
          false none true
          ⟨"pcm_s16le", 48000, 2, "eng".data, false, true, [".mkv"], true, 24⟩
          [⟨0, "aac", 2, 48000, "eng".data, "", 0⟩]) =
        ["0:v:0".data, "0:a:".data ++ pyStr i] :=
  ⟨(build_ffmpeg_command_mappings _ 0 10 _ _ none true _ _
      (by decide) (by decide) (by decide) (by decide) (by decide) (by decide)).1,
    (build_ffmpeg_command_mappings _ 0 10 _ _ none true _ _
      (by decide) (by decide) (by decide) (by decide) (by decide) (by decide)).2
      (by decide)⟩

/-! ### Path ordering (pathlib `PurePath` comparison: componentwise tuples) -/

/-- Strict lexicographic comparison of lists over a boolean base order. -/
def lexLtBy (lt : α → α → Bool) : List α → List α → Bool
  | [], [] => false
  | [], _ :: _ => true
  | _ :: _, [] => false
  | a :: as, b :: bs =>
    if lt a b then true else if lt b a then false else lexLtBy lt as bs

theorem lexLtBy_asymm {lt : α → α → Bool}
    (hasym : ∀ a b, lt a b = true → lt b a = false) :
    ∀ l₁ l₂, lexLtBy lt l₁ l₂ = true → lexLtBy lt l₂ l₁ = false
  | [], [] => by simp [lexLtBy]
  | [], _ :: _ => fun _ => by simp [lexLtBy]
  | _ :: _, [] => by simp [lexLtBy]
  | a :: as, b :: bs => by
    intro h
    rw [lexLtBy] at h ⊢
    by_cases hab : lt a b = true
    · rw [if_neg (by simp [hasym a b hab]), if_pos hab]
    · rw [if_neg hab] at h
      by_cases hba : lt b a = true
      · rw [if_pos hba] at h
        exact absurd h (by simp)
      · rw [if_neg hba] at h
        rw [if_neg hba, if_neg hab]
        exact lexLtBy_asymm hasym as bs h

theorem lexLtBy_connex {lt : α → α → Bool}
    (hconn : ∀ a b, lt a b = false → lt b a = false → a = b) :
    ∀ l₁ l₂, lexLtBy lt l₁ l₂ = false → lexLtBy lt l₂ l₁ = false → l₁ = l₂
  | [], [], _, _ => rfl
  | [], _ :: _, h, _ => by simp [lexLtBy] at h
  | _ :: _, [], _, h => by simp [lexLtBy] at h
  | a :: as, b :: bs, h₁, h₂ => by
    rw [lexLtBy] at h₁ h₂
    by_cases hab : lt a b = true
    · rw [if_pos hab] at h₁
      exact absurd h₁ (by simp)
    · by_cases hba : lt b a = true
      · rw [if_pos hba] at h₂
        exact absurd h₂ (by simp)
      · rw [if_neg hab, if_neg hba] at h₁
        rw [if_neg hba, if_neg hab] at h₂
        have hha : a = b := hconn a b (by simpa using hab) (by simpa using hba)
        have hht : as = bs :=
          lexLtBy_connex hconn as bs h₁ h₂
        rw [hha, hht]

theorem lexLtBy_trans {lt : α → α → Bool}
    (htr : ∀ a b c, lt a b = true → lt b c = true → lt a c = true)
    (hconn : ∀ a b, lt a b = false → lt b a = false → a = b) :
    ∀ l₁ l₂ l₃, lexLtBy lt l₁ l₂ = true → lexLtBy lt l₂ l₃ = true →
      lexLtBy lt l₁ l₃ = true
  | [], [], _, h, _ => by simp [lexLtBy] at h
  | _ :: _, [], _, h, _ => by simp [lexLtBy] at h
  | [], _ :: _, [], _, h => by simp [lexLtBy] at h
  | [], _ :: _, _ :: _, _, _ => by simp [lexLtBy]
  | _ :: _, _ :: _, [], _, h => by simp [lexLtBy] at h
  | a :: as, b :: bs, c :: cs, h₁, h₂ => by
    rw [lexLtBy] at h₁ h₂ ⊢
    by_cases hab : lt a b = true
    · by_cases hbc : lt b c = true
      · rw [if_pos (htr a b c hab hbc)]
      · rw [if_neg hbc] at h₂
        by_cases hcb : lt c b = true
        · rw [if_pos hcb] at h₂
          exact absurd h₂ Bool.false_ne_true
        · have hh : b = c := hconn b c (by simpa using hbc) (by simpa using hcb)
          subst hh
          rw [if_pos hab]
    · by_cases hba : lt b a = true
      · rw [if_neg hab, if_pos hba] at h₁
        exact absurd h₁ Bool.false_ne_true
      · have hhab : a = b := hconn a b (by simpa using hab) (by simpa using hba)
        subst hhab
        rw [if_neg hab, if_neg hba] at h₁
        by_cases hac : lt a c = true
        · rw [if_pos hac]
        · rw [if_neg hac] at h₂
          by_cases hca : lt c a = true
          · rw [if_pos hca] at h₂
            exact absurd h₂ Bool.false_ne_true
          · rw [if_neg hca] at h₂
            rw [if_neg hac, if_neg hca]
            exact lexLtBy_trans htr hconn as bs cs h₁ h₂

/-- Python `str` `<` on single characters: code-point order. -/
def charLtB (c d : Char) : Bool := decide (c.toNat < d.toNat)

theorem charLtB_asymm (a b : Char) (h : charLtB a b = true) : charLtB b a = false := by
  simp only [charLtB, decide_eq_true_eq] at h
  simp only [charLtB, decide_eq_false_iff_not]
  omega

theorem charLtB_trans (a b c : Char) (h₁ : charLtB a b = true) (h₂ : charLtB b c = true) :
    charLtB a c = true := by
  simp only [charLtB, decide_eq_true_eq] at h₁ h₂ ⊢
  omega

theorem charLtB_connex (a b : Char) (h₁ : charLtB a b = false) (h₂ : charLtB b a = false) :
    a = b := by
  simp only [charLtB, decide_eq_false_iff_not] at h₁ h₂
  exact char_toNat_inj (by omega)

/-- Python `str` `<`: code-point lexicographic order. -/
def strLtB (s t : String) : Bool := lexLtBy charLtB s.data t.data

theorem string_data_inj {s t : String} (h : s.data = t.data) : s = t := by
  cases s
  cases t
  exact congrArg String.mk h

theorem strLtB_asymm (a b : String) (h : strLtB a b = true) : strLtB b a = false :=
  lexLtBy_asymm charLtB_asymm _ _ h

theorem strLtB_trans (a b c : String) (h₁ : strLtB a b = true) (h₂ : strLtB b c = true) :
    strLtB a c = true :=
  lexLtBy_trans charLtB_trans charLtB_connex _ _ _ h₁ h₂

theorem strLtB_connex (a b : String) (h₁ : strLtB a b = false) (h₂ : strLtB b a = false) :
    a = b :=
  string_data_inj (lexLtBy_connex charLtB_connex _ _ h₁ h₂)

/-- pathlib `PurePath` `<`: lexicographic comparison of the component
tuples, each component compared as a string. -/
def pathLtB (p q : MPath) : Bool := lexLtBy strLtB p q

/-- The sort order of `sorted(list_of_paths)`: `p` may precede `q` when `q`
is not strictly smaller. -/
def pathLe (p q : MPath) : Prop := pathLtB q p = false

instance : DecidableRel pathLe := fun p q =>
  inferInstanceAs (Decidable (pathLtB q p = false))

theorem pathLe_total (p q : MPath) : pathLe p q ∨ pathLe q p := by
  by_cases h : pathLtB q p = true
  · exact Or.inr (lexLtBy_asymm strLtB_asymm _ _ h)
  · exact Or.inl (by simpa using h)

theorem pathLe_trans {p q r : MPath} (h₁ : pathLe p q) (h₂ : pathLe q r) : pathLe p r := by
  rw [pathLe] at h₁ h₂ ⊢
  by_cases hrp : pathLtB r p = true
  · by_cases hpq : pathLtB p q = true
    · have hrq : pathLtB r q = true :=
        lexLtBy_trans strLtB_trans strLtB_connex r p q hrp hpq
      rw [h₂] at hrq
      exact absurd hrq Bool.false_ne_true
    · have hh : p = q := lexLtBy_connex strLtB_connex p q (by simpa using hpq) h₁
      subst hh
      exact h₂
  · simpa using hrp

/-- Full path string: components joined by `/` (`str(path)` up to the root
prefix). -/
def joinSlash : MPath → List Char
  | [] => []
  | [s] => s.data
  | s :: rest => s.data ++ '/' :: joinSlash rest

/-! ### Filesystem model and directory traversal (cli.py, `iter_movie_files`) -/

mutual

/-- A filesystem node. Unreadable directories raise `PermissionError` when
listed. Symlinks are represented unfolded, so acyclic link graphs appear as
the walk observes them. -/
inductive FsNode where
  | file (name : String) (isLink : Bool)
  | dir (name : String) (readable : Bool) (isLink : Bool) (children : FsForest)

/-- Directory contents, in listing order. -/
inductive FsForest where
  | nil
  | cons (t : FsNode) (rest : FsForest)

end

/-- An `OSError` as seen by `os.walk`'s `onerror` callback. -/
structure OsError where
  errno : Int
  filename : Option MPath
deriving DecidableEq

/-- File entries (name, is-symlink) of a directory listing. -/
def forestFiles : FsForest → List (String × Bool)
  | .nil => []
  | .cons (.file n lk) rest => (n, lk) :: forestFiles rest
  | .cons (.dir _ _ _ _) rest => forestFiles rest

mutual

/-- Model of the `os.walk(top, followlinks, onerror)` call in
`iter_movie_files`: the top-down `(dirpath, filenames)` listing of every
readable directory reached, and the `PermissionError`s (errno `EACCES`)
handed to `onerror`, in traversal order. Symlinked subdirectories are
descended into only when `followlinks` holds; the top directory is walked
unconditionally. -/
def walkDir (follow : Bool) (path : MPath) :
    FsNode → List (MPath × List (String × Bool)) × List OsError
  | .file _ _ => ([], [])
  | .dir _ readable _ children =>
    if readable then
      let rest := walkChildren follow path children
      ((path, forestFiles children) :: rest.1, rest.2)
    else ([], [⟨13, some path⟩])

/-- Walk the subdirectories of a listed directory, in listing order. -/
def walkChildren (follow : Bool) (path : MPath) :
    FsForest → List (MPath × List (String × Bool)) × List OsError
  | .nil => ([], [])
  | .cons (.file _ _) rest => walkChildren follow path rest
  | .cons (.dir n rd lk ch) rest =>
    let r1 :=
      if follow || !lk then walkDir follow (path ++ [n]) (.dir n rd lk ch)
      else ([], [])
    let r2 := walkChildren follow path rest
    (r1.1 ++ r2.1, r1.2 ++ r2.2)

end

/-- Embedding of `handle_walk_error` (cli.py lines 300-309) applied along the
traversal: keep only `EACCES` (13) / `EPERM` (1) errors, at most once per
distinct `(errno, filename)` pair; `warned` is the `warned_errors` set. -/
def handleWalkErrors (warned : List (Int × Option MPath)) : List OsError → List OsError
  | [] => []
  | e :: rest =>
    if e.errno ≠ 13 ∧ e.errno ≠ 1 then handleWalkErrors warned rest
    else if (e.errno, e.filename) ∈ warned then handleWalkErrors warned rest
    else e :: handleWalkErrors ((e.errno, e.filename) :: warned) rest

/-- The per-file test of `iter_movie_files`' inner loop (cli.py lines
314-320): keep a listed file when its lowercased suffix is a configured
lowercased extension, unless it is a symlink and symlinks are not
followed. -/
def fileKeep (follow : Bool) (exts : List (List Char)) (path : MPath)
    (nl : String × Bool) : Option MPath :=
  if pyLower (pySuffix nl.1.data) ∈ exts ∧ (follow ∨ ¬nl.2) then some (path ++ [nl.1])
  else none

/-- Embedding of `iter_movie_files` (cli.py lines 294-322): walk the tree,
keep files whose lowercased suffix is among the lowercased extensions,
skip symlinked files when not following symlinks, sort by pathlib path
order, and emit the deduplicated permission warnings. -/
def iter_movie_files (movies_dir : MPath) (root : FsNode) (extensions : List String)
    (follow_symlinks : Bool) : List MPath × List OsError :=
  let w := walkDir follow_symlinks movies_dir root
  let files := w.1.flatMap fun rf =>
    rf.2.filterMap (fileKeep follow_symlinks (extensions.map fun e => pyLower e.data) rf.1)
  (List.insertionSort pathLe files, handleWalkErrors [] w.2)

mutual

/-- Specification-side collector: the matching, non-excluded files reachable
from a node under the symlink policy (extensions already lowercased). -/
def matchedFiles (follow : Bool) (exts : List (List Char)) (path : MPath) :
    FsNode → List MPath
  | .file _ _ => []
  | .dir _ readable _ children =>
    if readable then matchedForest follow exts path children else []

/-- The same collector over directory contents. -/
def matchedForest (follow : Bool) (exts : List (List Char)) (path : MPath) :
    FsForest → List MPath
  | .nil => []
  | .cons (.file n lk) rest =>
    (if pyLower (pySuffix n.data) ∈ exts ∧ (follow ∨ ¬lk) then [path ++ [n]] else []) ++
      matchedForest follow exts path rest
  | .cons (.dir n rd lk ch) rest =>
    (if follow || !lk then matchedFiles follow exts (path ++ [n]) (.dir n rd lk ch)
      else []) ++
      matchedForest follow exts path rest

end

mutual

theorem walkDir_files_perm (follow : Bool) (exts : List (List Char)) :
    ∀ (path : MPath) (t : FsNode),
      ((walkDir follow path t).1.flatMap fun rf =>
          rf.2.filterMap (fileKeep follow exts rf.1)).Perm
        (matchedFiles follow exts path t)
  | path, .file n lk => by simp [walkDir, matchedFiles]
  | path, .dir n rd lk ch => by
    rw [walkDir, matchedFiles]
    by_cases hrd : rd = true
    · rw [if_pos hrd, if_pos hrd]
      dsimp only
      rw [List.flatMap_cons]
      exact walkChildren_files_perm follow exts path ch
    · rw [if_neg hrd, if_neg hrd]
      simp

theorem walkChildren_files_perm (follow : Bool) (exts : List (List Char)) :
    ∀ (path : MPath) (ch : FsForest),
      ((forestFiles ch).filterMap (fileKeep follow exts path) ++
          ((walkChildren follow path ch).1.flatMap fun rf =>
            rf.2.filterMap (fileKeep follow exts rf.1))).Perm
        (matchedForest follow exts path ch)
  | path, .nil => by simp [forestFiles, walkChildren, matchedForest]
  | path, .cons (.file n lk) rest => by
    rw [forestFiles, walkChildren, matchedForest]
    by_cases hc : pyLower (pySuffix n.data) ∈ exts ∧ (follow ∨ ¬lk)
    · simp only [List.filterMap_cons, fileKeep, if_pos hc, List.cons_append,
        List.singleton_append]
      exact (walkChildren_files_perm follow exts path rest).cons _
    · simp only [List.filterMap_cons, fileKeep, if_neg hc, List.nil_append]
      exact walkChildren_files_perm follow exts path rest
  | path, .cons (.dir n rd lk ch) rest => by
    rw [forestFiles, walkChildren, matchedForest]
    dsimp only
    by_cases hdesc : (follow || !lk) = true
    · rw [if_pos hdesc, if_pos hdesc]
      rw [List.flatMap_append]
      have hA := walkDir_files_perm follow exts (path ++ [n]) (.dir n rd lk ch)
      have hB := walkChildren_files_perm follow exts path rest
      exact (List.perm_append_comm_assoc _ _ _).trans (hA.append hB)
    · rw [if_neg hdesc, if_neg hdesc]
      dsimp only
      simp only [List.nil_append]
      exact walkChildren_files_perm follow exts path rest

end

theorem handleWalkErrors_spec :
    ∀ (errs : List OsError) (warned : List (Int × Option MPath)),
      ((handleWalkErrors warned errs).map fun e => (e.errno, e.filename)).Nodup ∧
        ∀ k ∈ (handleWalkErrors warned errs).map fun e => (e.errno, e.filename),
          k ∉ warned := by
  intro errs
  induction errs with
  | nil => intro warned; simp [handleWalkErrors]
  | cons e rest ih =>
    intro warned
    rw [handleWalkErrors]
    by_cases h1 : e.errno ≠ 13 ∧ e.errno ≠ 1
    · rw [if_pos h1]
      exact ih warned
    · rw [if_neg h1]
      by_cases h2 : (e.errno, e.filename) ∈ warned
      · rw [if_pos h2]
        exact ih warned
      · rw [if_neg h2]
        obtain ⟨hnd, hnotin⟩ := ih ((e.errno, e.filename) :: warned)
        refine ⟨?_, ?_⟩
        · rw [List.map_cons, List.nodup_cons]
          exact ⟨fun hmem => (hnotin _ hmem) (List.mem_cons_self _ _), hnd⟩
        · intro k hk
          rw [List.map_cons, List.mem_cons] at hk
          rcases hk with rfl | hk
          · exact h2
          · exact fun hw => (hnotin k hk) (List.mem_cons_of_mem _ hw)

instance : IsTotal MPath pathLe := ⟨pathLe_total⟩

instance : IsTrans MPath pathLe := ⟨fun _ _ _ => pathLe_trans⟩

/-- C7 (amended): the scan returns a permutation of exactly the reachable
files whose lowercased suffix matches a configured extension (symlinked
files excluded when not following symlinks), sorted in pathlib path order —
lexicographic on the component tuple, not on the joined path string — and
it emits at most one permission warning per distinct (errno, path) pair. -/
theorem iter_movie_files_spec (movies_dir : MPath) (root : FsNode)
    (extensions : List String) (follow_symlinks : Bool) :
    (iter_movie_files movies_dir root extensions follow_symlinks).1.Perm
        (matchedFiles follow_symlinks (extensions.map fun e => pyLower e.data)
          movies_dir root) ∧
      (iter_movie_files movies_dir root extensions follow_symlinks).1.Sorted pathLe ∧
      ((iter_movie_files movies_dir root extensions follow_symlinks).2.map
          fun e => (e.errno, e.filename)).Nodup := by
  refine ⟨?_, ?_, ?_⟩
  · rw [iter_movie_files]
    dsimp only
    exact (List.perm_insertionSort pathLe _).trans
      (walkDir_files_perm follow_symlinks _ movies_dir root)
  · rw [iter_movie_files]
    dsimp only
    exact List.sorted_insertionSort pathLe _
  · rw [iter_movie_files]
    dsimp only
    exact (handleWalkErrors_spec _ []).1

/-- C7 counterexample: the scan output is ordered by path components, which
is not lexicographic order on the full path string: with directories `a`
and `a.c`, the file `movies/a/b.mkv` is listed before `movies/a.c/x.mkv`
although the full string `movies/a.c/x.mkv` is lexicographically smaller
(`.` sorts before `/`). -/
theorem iter_movie_files_not_string_sorted :
    (iter_movie_files ["movies"]
        (.dir "movies" true false
          (.cons (.dir "a" true false (.cons (.file "b.mkv" false) .nil))
            (.cons (.dir "a.c" true false (.cons (.file "x.mkv" false) .nil)) .nil)))
        [".mkv"] true).1 =
      [["movies", "a", "b.mkv"], ["movies", "a.c", "x.mkv"]] ∧
    lexLtBy charLtB (joinSlash ["movies", "a.c", "x.mkv"])
        (joinSlash ["movies", "a", "b.mkv"]) = true := by
  constructor <;> decide

/-! ### Cache persistence and the lookup policy (cli.py, `load_movie_cache`,
`save_movie_cache`, `build_movie_cache`, `find_movie_files`) -/

/-- Python exceptions relevant to cache I/O. -/
inductive PyExc where
  | fileNotFound
  | osError
  | jsonDecodeError
deriving DecidableEq

/-- The state the cache file is in when `load_movie_cache` runs. -/
inductive CacheFileState where
  | missing
  | ioError
  | malformed
  | good (data : CacheJson)

/-- Opening, reading and JSON-decoding the cache file, with the exception
each failure mode raises. -/
def readCacheFile : CacheFileState → Except PyExc CacheJson
  | .missing => Except.error PyExc.fileNotFound
  | .ioError => Except.error PyExc.osError
  | .malformed => Except.error PyExc.jsonDecodeError
  | .good c => Except.ok c

/-- The classes named in `load_movie_cache`'s `except` clause
(`json.JSONDecodeError`, `FileNotFoundError`, `OSError`). -/
def caughtByLoad : PyExc → Bool
  | .jsonDecodeError => true
  | .fileNotFound => true
  | .osError => true

/-- Embedding of `load_movie_cache` (cli.py lines 244-255): `none` when the
file does not exist; otherwise read and decode under `try`, with a caught
exception yielding `none`. An uncaught exception would surface as
`.error`. -/
def load_movie_cache (st : CacheFileState) : Except PyExc (Option CacheJson) :=
  match st with
  | .missing => Except.ok none
  | st =>
    match readCacheFile st with
    | .ok c => Except.ok (some c)
    | .error e => if caughtByLoad e then Except.ok none else Except.error e

/-- Outcome of the underlying cache-file write. -/
inductive WriteResult where
  | ok
  | osError
  | ioError
deriving DecidableEq

/-- Embedding of `save_movie_cache` (cli.py lines 258-266): `OSError` and
`IOError` during the write are caught and reported as a console warning
(the `Bool`); an uncaught exception would surface as `.error`. -/
def save_movie_cache (w : WriteResult) : Except PyExc Bool :=
  match w with
  | .ok => Except.ok false
  | .osError => Except.ok true
  | .ioError => Except.ok true

/-- Embedding of `build_movie_cache` (cli.py lines 325-354): scan, stat every
found file (`statF` models `Path.stat()`, `none` a raised `OSError`; such
files are dropped), and wrap the entries with the timestamp and the scan
parameters. -/
def build_movie_cache (movies_dir : MPath) (root : FsNode) (extensions : List String)
    (follow_symlinks : Bool) (now : ℚ) (statF : MPath → Option (Int × ℚ)) :
    CacheJson where
  timestamp := some now
  movies_dir := some (String.mk (joinSlash movies_dir))
  movies := some ((iter_movie_files movies_dir root extensions follow_symlinks).1.filterMap
    fun p => (statF p).map fun sm => ⟨p, sm.1, sm.2⟩)
  extensions := some extensions
  follow_symlinks := some follow_symlinks

/-- Embedding of `find_movie_files` (cli.py lines 397-419). The inputs model
the world: `loaded` the parsed cache file, `now` the clock, `statF` and
`existsF` the filesystem stat and existence checks, `w` the outcome of the
cache write. Returns the paths, the record handed to `save_movie_cache`
(absent when no rebuild happened), and whether the save warned. -/
def find_movie_files (movies_dir : MPath) (root : FsNode) (extensions : List String)
    (follow_symlinks : Bool) (cfg : Settings) (loaded : Option CacheJson) (now : ℚ)
    (statF : MPath → Option (Int × ℚ)) (existsF : MPath → Bool) (w : WriteResult) :
    List MPath × Option CacheJson × Bool :=
  if cfg.cache_enabled then
    let rebuild : List MPath × Option CacheJson × Bool :=
      let built := build_movie_cache movies_dir root extensions follow_symlinks now statF
      let warned :=
        match save_movie_cache w with
        | .ok b => b
        | .error _ => true
      ((built.movies.getD []).map (fun e => e.path), some built, warned)
    match loaded with
    | some cache_data =>
      if cache_data ≠ ⟨none, none, none, none, none⟩ ∧
          is_cache_valid cache_data (String.mk (joinSlash movies_dir)) cfg now = true then
        (List.insertionSort pathLe
          (((cache_data.movies.getD []).map (fun e => e.path)).filter existsF),
          none, false)
      else rebuild
    | none => rebuild
  else
    ((iter_movie_files movies_dir root extensions follow_symlinks).1, none, false)

/-- C6: the lookup policy. Caching disabled: always scan live, nothing
persisted. Enabled with a loaded, non-empty, valid record: return the
record's entries filtered to those that still exist on disk (sorted in path
order), without rebuilding or persisting. Enabled with an absent, empty or
invalid record: rebuild by scanning, persist the new record, and return its
entries unfiltered. -/
theorem find_movie_files_policy (movies_dir : MPath) (root : FsNode)
    (extensions : List String) (follow_symlinks : Bool) (cfg : Settings)
    (loaded : Option CacheJson) (now : ℚ) (statF : MPath → Option (Int × ℚ))
    (existsF : MPath → Bool) (w : WriteResult) :
    (cfg.cache_enabled = false →
      find_movie_files movies_dir root extensions follow_symlinks cfg loaded now
          statF existsF w =
        ((iter_movie_files movies_dir root extensions follow_symlinks).1, none, false)) ∧
    (∀ c, cfg.cache_enabled = true → loaded = some c →
      c ≠ ⟨none, none, none, none, none⟩ →
      is_cache_valid c (String.mk (joinSlash movies_dir)) cfg now = true →
      find_movie_files movies_dir root extensions follow_symlinks cfg loaded now
          statF existsF w =
        (List.insertionSort pathLe
          (((c.movies.getD []).map (fun e => e.path)).filter existsF), none, false)) ∧
    (cfg.cache_enabled = true →
      (loaded = none ∨ ∃ c, loaded = some c ∧
        (c = ⟨none, none, none, none, none⟩ ∨
          is_cache_valid c (String.mk (joinSlash movies_dir)) cfg now = false)) →
      find_movie_files movies_dir root extensions follow_symlinks cfg loaded now
          statF existsF w =
        (((build_movie_cache movies_dir root extensions follow_symlinks now
              statF).movies.getD []).map (fun e => e.path),
          some (build_movie_cache movies_dir root extensions follow_symlinks now statF),
          match save_movie_cache w with
          | .ok b => b
          | .error _ => true)) := by
  refine ⟨?_, ?_, ?_⟩
  · intro hdis
    rw [find_movie_files, if_neg (by simp [hdis])]
  · intro c hen hl hne hvalid
    rw [find_movie_files, if_pos hen, hl]
    dsimp only
    rw [if_pos ⟨hne, hvalid⟩]
  · intro hen hbad
    rw [find_movie_files, if_pos hen]
    rcases hbad with rfl | ⟨c, rfl, hc⟩
    · rfl
    · dsimp only
      rw [if_neg ?_]
      intro ⟨hne, hvalid⟩
      rcases hc with rfl | hc
      · exact hne rfl
      · rw [hvalid] at hc
        exact absurd hc (by simp)

/-- Witness for `find_movie_files_policy`: a fresh, matching cache record at
time zero is served from the cache (filtered by existence, nothing
persisted). -/
theorem find_movie_files_policy_witness :
    find_movie_files ["movies"] (.dir "movies" true false .nil) [".mkv"] true
        ⟨"pcm_s16le", 48000, 2, "eng".data, false, true, [".mkv"], true, 24⟩
        (some ⟨some 0, some (String.mk (joinSlash ["movies"])),
          some [⟨["movies", "gone.mkv"], 1, 0⟩], some [".mkv"], some true⟩) 0
        (fun _ => none) (fun _ => false) WriteResult.ok =
      (List.insertionSort pathLe
        ((((⟨some 0, some (String.mk (joinSlash ["movies"])),
              some [⟨["movies", "gone.mkv"], 1, 0⟩], some [".mkv"], some true⟩ :
            CacheJson).movies.getD []).map (fun e => e.path)).filter (fun _ => false)),
        none, false) :=
  (find_movie_files_policy ["movies"] (.dir "movies" true false .nil) [".mkv"] true
      ⟨"pcm_s16le", 48000, 2, "eng".data, false, true, [".mkv"], true, 24⟩ _ 0
      (fun _ => none) (fun _ => false) WriteResult.ok).2.1 _ rfl rfl
    (by decide)
    (by
      rw [is_cache_valid]
      norm_num
      exact Or.inl (by simp))

/-- C9: loading the cache never raises — every failure mode yields `ok`
(`none` for the caller) —; saving never raises and reports a warning exactly
on write failure; and the paths returned by the lookup do not depend on the
write outcome, so execution continues on the just-built in-memory record. -/
theorem cache_io_spec :
    (∀ st : CacheFileState, ∃ r, load_movie_cache st = Except.ok r) ∧
    (∀ w : WriteResult, ∃ warned, save_movie_cache w = Except.ok warned) ∧
    (∀ w : WriteResult, w ≠ WriteResult.ok → save_movie_cache w = Except.ok true) ∧
    (∀ (movies_dir : MPath) (root : FsNode) (extensions : List String)
        (follow_symlinks : Bool) (cfg : Settings) (loaded : Option CacheJson) (now : ℚ)
        (statF : MPath → Option (Int × ℚ)) (existsF : MPath → Bool)
        (w₁ w₂ : WriteResult),
      (find_movie_files movies_dir root extensions follow_symlinks cfg loaded now
          statF existsF w₁).1 =
        (find_movie_files movies_dir root extensions follow_symlinks cfg loaded now
          statF existsF w₂).1) := by
  refine ⟨?_, ?_, ?_, ?_⟩
  · intro st
    cases st with
    | missing => exact ⟨none, rfl⟩
    | ioError => exact ⟨none, rfl⟩
    | malformed => exact ⟨none, rfl⟩
    | good c => exact ⟨some c, rfl⟩
  · intro w
    cases w with
    | ok => exact ⟨false, rfl⟩
    | osError => exact ⟨true, rfl⟩
    | ioError => exact ⟨true, rfl⟩
  · intro w hw
    cases w with
    | ok => exact absurd rfl hw
    | osError => rfl
    | ioError => rfl
  · intro movies_dir root extensions follow_symlinks cfg loaded now statF existsF w₁ w₂
    by_cases hen : cfg.cache_enabled = true
    · rw [find_movie_files, find_movie_files, if_pos hen, if_pos hen]
      rcases loaded with - | c
      · rfl
      · dsimp only
        by_cases hv : c ≠ ⟨none, none, none, none, none⟩ ∧
            is_cache_valid c (String.mk (joinSlash movies_dir)) cfg now = true
        · rw [if_pos hv, if_pos hv]
        · rw [if_neg hv, if_neg hv]
    · rw [find_movie_files, find_movie_files, if_neg hen, if_neg hen]

end Movieclipper
